import Mathlib

/-!
Verification of the working-memory core of mcp-elvis-simple.

The embedded code is the `WorkingMemory` class of `src/working-memory.js`
(calculateValue, add, evictLowestValue, access, list) together with the
`clear` action implemented in `src/index.js` (case 'clear').

Modelling conventions:
- JavaScript wall-clock reads (`Date.now()` / `new Date().toISOString()`)
  become an explicit `now : ℤ` (milliseconds) parameter, as the spec itself
  requires an injectable time source for deterministic testing.
- The randomly generated id string becomes an explicit `id : String`
  parameter of `add`; freshness of generated ids is a hypothesis where a
  claim needs it.
- JavaScript numbers in the scoring function become real numbers (ℝ);
  `Math.exp` / `Math.log` become `Real.exp` / `Real.log`.
- JavaScript strings used as content become `List Char` (a JS string is a
  sequence of code units; `content.substring(0, 200)` is `List.take 200`).
- `Array.prototype.sort` in `evictLowestValue` is stable (ECMAScript 2019),
  so sorting by ascending score and taking element 0 selects the entry with
  the minimum score, earliest current index on ties; we embed that selection
  directly as `argminSnd`, first pair with minimal second component.
-/

namespace ElvisWM

/-- One working-memory entry, flattening the JS object literal built in
`WorkingMemory.add`: `id`, `priority`, `content`, the `metaTags` fields
(`layer`, `persistence`, `visibility`, `category`, `status`,
`contextWeight`), `systemTags`, and the `metadata` fields (`created`,
`lastAccessed`, `accessCount`, `source`). Timestamps are milliseconds. -/
structure Memory where
  id : String
  priority : ℤ
  content : List Char
  layer : String
  persistence : String
  visibility : String
  category : String
  status : String
  contextWeight : ℚ
  systemTags : List String
  created : ℤ
  lastAccessed : ℤ
  accessCount : ℕ
deriving DecidableEq

/-- The store: `constructor(maxSlots = 7) { this.maxSlots = maxSlots; this.slots = []; }`. -/
structure WorkingMemory where
  maxSlots : ℕ
  slots : List Memory
deriving DecidableEq

/-- The default capacity of the constructor (`maxSlots = 7`). -/
def defaultMaxSlots : ℕ := 7

/-- A freshly constructed store of capacity `maxSlots`. -/
def WorkingMemory.init (maxSlots : ℕ) : WorkingMemory :=
  { maxSlots := maxSlots, slots := [] }

/-- The category weight lookup object of `calculateValue`:
`{decision: 1.0, insight: 0.9, pattern: 0.8, reference: 0.6, task: 0.5,
result: 0.4}[category] || 0.5`. -/
def categoryWeight (c : String) : ℚ :=
  if c = "decision" then 1.0
  else if c = "insight" then 0.9
  else if c = "pattern" then 0.8
  else if c = "reference" then 0.6
  else if c = "task" then 0.5
  else if c = "result" then 0.4
  else 0.5

/-- `WorkingMemory.calculateValue(memory)` with the internal `Date.now()`
read made explicit as `now`:
age decay `exp(-age / (1000*60*60))`, access bonus `log(accessCount + 1)`,
priority weight `priority / 7`, category weight from the lookup table, and
the weighted sum `ageDecay*0.3 + accessBonus*0.2 + priorityWeight*0.3 +
categoryWeight*0.2`. -/
noncomputable def WorkingMemory.calculateValue (now : ℤ) (m : Memory) : ℝ :=
  let age : ℝ := (now : ℝ) - (m.lastAccessed : ℝ)
  let ageDecay : ℝ := Real.exp (-age / (1000 * 60 * 60))
  let accessBonus : ℝ := Real.log ((m.accessCount : ℝ) + 1)
  let priorityWeight : ℝ := (m.priority : ℝ) / 7
  let catWeight : ℝ := (categoryWeight m.category : ℝ)
  ageDecay * 0.3 + accessBonus * 0.2 + priorityWeight * 0.3 + catWeight * 0.2

/-- The memory object literal constructed by `WorkingMemory.add`:
priority `Math.min(Math.max(priority, 1), 7)`, content
`content.substring(0, 200)`, fixed metaTags, `created = lastAccessed = now`,
`accessCount = 0`. -/
def mkMemory (now : ℤ) (id : String) (content : List Char) (category : String)
    (priority : ℤ) (tags : List String) : Memory :=
  { id := id
    priority := min (max priority 1) 7
    content := content.take 200
    layer := "working_memory"
    persistence := "session"
    visibility := "on_demand"
    category := category
    status := "active"
    contextWeight := 0.2
    systemTags := tags
    created := now
    lastAccessed := now
    accessCount := 0 }

/-- First pair with minimal second component: the element at index 0 of a
stable ascending sort by the second component, as in
`.sort((a, b) => a.score - b.score)` followed by `scored[0]`. -/
def argminSnd {γ β : Type} [LinearOrder β] : List (γ × β) → Option (γ × β)
  | [] => none
  | p :: l =>
    match argminSnd l with
    | none => some p
    | some q => if p.2 ≤ q.2 then some p else some q

/-- `WorkingMemory.evictLowestValue()`: returns `null` and leaves the slots
unchanged when empty; otherwise scores every slot, picks the first
minimum-score entry (stable sort, element 0), and removes every slot whose
id equals the evicted id (`this.slots.filter(m => m.id !== evicted.id)`).
The console archiving of decision/insight entries is a log-only side effect
and is not modelled. -/
noncomputable def WorkingMemory.evictLowestValue (s : WorkingMemory) (now : ℤ) :
    Option Memory × WorkingMemory :=
  match argminSnd (s.slots.map (fun m => (m, WorkingMemory.calculateValue now m))) with
  | none => (none, s)
  | some (evicted, _) =>
      (some evicted, { s with slots := s.slots.filter (fun m => m.id != evicted.id) })

/-- `WorkingMemory.add(content, category, priority = 5, tags = [])`:
builds the new memory, evicts the lowest-value entry first when
`slots.length >= maxSlots`, then pushes the new memory and returns it. -/
noncomputable def WorkingMemory.add (s : WorkingMemory) (now : ℤ) (id : String)
    (content : List Char) (category : String) (priority : ℤ) (tags : List String) :
    Memory × WorkingMemory :=
  let memory := mkMemory now id content category priority tags
  let s1 := if s.maxSlots ≤ s.slots.length then (s.evictLowestValue now).2 else s
  (memory, { s1 with slots := s1.slots ++ [memory] })

/-- The default value of the `priority` parameter of `add` (`priority = 5`). -/
def defaultPriority : ℤ := 5

/-- The in-place update `access` performs on the found memory:
`lastAccessed = now; accessCount++`. -/
def touch (now : ℤ) (m : Memory) : Memory :=
  { m with lastAccessed := now, accessCount := m.accessCount + 1 }

/-- The slot list after `access`: the first slot whose id matches is
replaced by its touched version (JS `find` returns the first match and the
mutation hits that object); all other slots are unchanged. -/
def accessSlots (now : ℤ) (memoryId : String) : List Memory → List Memory
  | [] => []
  | m :: l =>
    if m.id = memoryId then touch now m :: l
    else m :: accessSlots now memoryId l

/-- `WorkingMemory.access(memoryId)`: finds the first slot with the given
id; if found, updates its `lastAccessed` and `accessCount` and returns the
updated memory; otherwise returns `undefined` (here `none`) and changes
nothing. -/
def WorkingMemory.access (s : WorkingMemory) (now : ℤ) (memoryId : String) :
    Option Memory × WorkingMemory :=
  match s.slots.find? (fun m => m.id = memoryId) with
  | none => (none, s)
  | some m => (some (touch now m), { s with slots := accessSlots now memoryId s.slots })

/-- `WorkingMemory.list()` (non-verbose): returns the slots in store order. -/
def WorkingMemory.list (s : WorkingMemory) : List Memory := s.slots

/-- The `case 'clear'` handler of `src/index.js`: reads
`workingMemory.slots.length` as the removed count and sets
`workingMemory.slots = []`. -/
def WorkingMemory.clear (s : WorkingMemory) : ℕ × WorkingMemory :=
  (s.slots.length, { s with slots := [] })

/-- One external operation on the store, with its wall-clock instant and
(for add) the generated id made explicit. -/
inductive Op where
  | add (now : ℤ) (id : String) (content : List Char) (category : String)
      (priority : ℤ) (tags : List String)
  | access (now : ℤ) (memoryId : String)
  | evict (now : ℤ)
  | clear
deriving DecidableEq

/-- Effect of one operation on the store state. -/
noncomputable def step (s : WorkingMemory) : Op → WorkingMemory
  | .add now id content category priority tags =>
      (s.add now id content category priority tags).2
  | .access now memoryId => (s.access now memoryId).2
  | .evict now => (s.evictLowestValue now).2
  | .clear => s.clear.2

/-- Run a sequence of operations left to right. -/
noncomputable def run (s : WorkingMemory) : List Op → WorkingMemory
  | [] => s
  | op :: ops => run (step s op) ops

/-- Whether `op` is an insert operation. -/
def isAddOp : Op → Bool
  | .add _ _ _ _ _ _ => true
  | _ => false

/-- The generated-id freshness guarantee for one operation against the
current state: an `add` must carry an id not currently live. -/
def freshOp (s : WorkingMemory) : Op → Bool
  | .add _ id _ _ _ _ => !(decide (id ∈ s.slots.map Memory.id))
  | _ => true

/-- Every operation of the trace carries a fresh id at the state where it
executes. -/
noncomputable def freshRun (s : WorkingMemory) : List Op → Bool
  | [] => true
  | op :: ops => freshOp s op && freshRun (step s op) ops

/-- All live ids are pairwise distinct. -/
def idsNodup (s : WorkingMemory) : Prop := (s.slots.map Memory.id).Nodup

/-- The category weight table exactly as the claim states it: decision 1.0,
insight 0.9, pattern 0.8, reference 0.6, task 0.5, result 0.4, and 0.5 for
every other category value. -/
def claimCategoryWeight (c : String) : ℚ :=
  if c = "decision" then 1.0
  else if c = "insight" then 0.9
  else if c = "pattern" then 0.8
  else if c = "reference" then 0.6
  else if c = "task" then 0.5
  else if c = "result" then 0.4
  else 0.5

/-- The scoring function exactly as the claim states it:
`0.3 * exp(-(now - lastAccessedAt) / 3600000) + 0.2 * log(accessCount + 1)
+ 0.3 * (priority / 7) + 0.2 * w(category)`, the four weighted terms
summed. -/
noncomputable def claimScore (now : ℤ) (m : Memory) : ℝ :=
  0.3 * Real.exp (-((now : ℝ) - (m.lastAccessed : ℝ)) / 3600000) +
  0.2 * Real.log ((m.accessCount : ℝ) + 1) +
  0.3 * ((m.priority : ℝ) / 7) +
  0.2 * (claimCategoryWeight m.category : ℝ)

/-- A sample entry used as the concrete input of witness theorems. -/
def demoMemory : Memory := mkMemory 0 "wm_demo" ['h', 'i'] "task" 4 []

/-- A one-slot store holding the sample entry, used by witness theorems. -/
def demoStore : WorkingMemory := { maxSlots := 1, slots := [demoMemory] }

/-- The entry A of the spec's concrete eviction scenario
(category decision, priority 7), inserted at instant 0. -/
def memA : Memory := mkMemory 0 "wm_A" ['A'] "decision" 7 []

/-- The entry B of the scenario (category result, priority 1). -/
def memB : Memory := mkMemory 0 "wm_B" ['B'] "result" 1 []

/-- The entry C of the scenario (category task, priority 5). -/
def memC : Memory := mkMemory 0 "wm_C" ['C'] "task" 5 []

/-- Insert of entry A. -/
def opA : Op := Op.add 0 "wm_A" ['A'] "decision" 7 []

/-- Insert of entry B. -/
def opB : Op := Op.add 0 "wm_B" ['B'] "result" 1 []

/-- Insert of entry C. -/
def opC : Op := Op.add 0 "wm_C" ['C'] "task" 5 []

/-- The scenario store: capacity 2, insert A, then B, then C. -/
noncomputable def scenarioStore : WorkingMemory :=
  run (WorkingMemory.init 2) [opA, opB, opC]

/-- A concrete two-insert trace on a capacity-1 store, used by witness
theorems (the second insert triggers an eviction). -/
def demoOps : List Op :=
  [Op.add 0 "wm_a" ['x'] "task" 5 [], Op.add 1 "wm_b" ['y'] "insight" 6 []]

/-- `argminSnd` over `l.map (fun x => (x, g x))` returns the earliest
element with minimal `g`-value: the list splits as `l1 ++ e :: l2` where
`e` attains the minimum and everything before it is strictly greater. -/
theorem argminSnd_map_spec {γ β : Type} [LinearOrder β] (g : γ → β) (l : List γ)
    (hl : l ≠ []) :
    ∃ l1 e l2, l = l1 ++ e :: l2 ∧
      argminSnd (l.map (fun x => (x, g x))) = some (e, g e) ∧
      (∀ x ∈ l, g e ≤ g x) ∧ (∀ x ∈ l1, g e < g x) := by
  induction l with
  | nil => exact absurd rfl hl
  | cons a t ih =>
    cases t with
    | nil =>
      refine ⟨[], a, [], rfl, rfl, ?_, by simp⟩
      intro x hx
      rw [List.mem_singleton.mp hx]
    | cons b t2 =>
      obtain ⟨l1, e, l2, hdec, heq, hmin, hstrict⟩ := ih (by simp)
      by_cases hle : g a ≤ g e
      · refine ⟨[], a, b :: t2, rfl, ?_, ?_, by simp⟩
        · show argminSnd ((a, g a) :: (b :: t2).map (fun x => (x, g x))) = some (a, g a)
          unfold argminSnd
          rw [heq]
          simp [hle]
        · intro x hx
          rcases List.mem_cons.mp hx with h | h
          · rw [h]
          · exact le_trans hle (hmin x h)
      · have hlt : g e < g a := lt_of_not_le hle
        refine ⟨a :: l1, e, l2, by simp [hdec], ?_, ?_, ?_⟩
        · show argminSnd ((a, g a) :: (b :: t2).map (fun x => (x, g x))) = some (e, g e)
          unfold argminSnd
          rw [heq]
          simp [hle]
        · intro x hx
          rcases List.mem_cons.mp hx with h | h
          · rw [h]; exact le_of_lt hlt
          · exact hmin x h
        · intro x hx
          rcases List.mem_cons.mp hx with h | h
          · rw [h]; exact hlt
          · exact hstrict x h

/-- When all live ids are distinct, filtering out the id of the entry `e`
removes exactly `e` from `l1 ++ e :: l2`. -/
theorem filter_ne_id_of_nodup (l1 l2 : List Memory) (e : Memory)
    (hnd : ((l1 ++ e :: l2).map Memory.id).Nodup) :
    (l1 ++ e :: l2).filter (fun m => m.id != e.id) = l1 ++ l2 := by
  rw [List.map_append, List.map_cons, List.nodup_append] at hnd
  obtain ⟨hnd1, hnd2, hdisj⟩ := hnd
  have h1 : ∀ m ∈ l1, (m.id != e.id) = true := by
    intro m hm
    have : m.id ∉ Memory.id e :: List.map Memory.id l2 :=
      hdisj (List.mem_map_of_mem Memory.id hm)
    simp only [List.mem_cons, not_or] at this
    simpa using this.1
  have h2 : ∀ m ∈ l2, (m.id != e.id) = true := by
    intro m hm
    have he : e.id ∉ List.map Memory.id l2 := (List.nodup_cons.mp hnd2).1
    have : m.id ≠ e.id := by
      intro hcontra
      exact he (hcontra ▸ List.mem_map_of_mem Memory.id hm)
    simpa using this
  rw [List.filter_append, List.filter_cons]
  simp only [bne_self_eq_false, Bool.false_eq_true, if_false]
  rw [List.filter_eq_self.mpr h1, List.filter_eq_self.mpr h2]

/-- `evictLowestValue` on a non-empty store with distinct live ids removes
and returns the earliest entry with minimal score. -/
theorem evictLowestValue_spec (s : WorkingMemory) (now : ℤ) (hne : s.slots ≠ [])
    (hnd : idsNodup s) :
    ∃ l1 e l2, s.slots = l1 ++ e :: l2 ∧
      s.evictLowestValue now = (some e, { s with slots := l1 ++ l2 }) ∧
      (∀ m ∈ s.slots, WorkingMemory.calculateValue now e ≤ WorkingMemory.calculateValue now m) ∧
      (∀ m ∈ l1, WorkingMemory.calculateValue now e < WorkingMemory.calculateValue now m) := by
  obtain ⟨l1, e, l2, hdec, heq, hmin, hstrict⟩ :=
    argminSnd_map_spec (WorkingMemory.calculateValue now) s.slots hne
  refine ⟨l1, e, l2, hdec, ?_, hmin, hstrict⟩
  unfold WorkingMemory.evictLowestValue
  rw [heq]
  have hfilter : s.slots.filter (fun m => m.id != e.id) = l1 ++ l2 := by
    rw [hdec]
    exact filter_ne_id_of_nodup l1 l2 e (by rw [← hdec]; exact hnd)
  show (some e, { s with slots := s.slots.filter (fun m => m.id != e.id) }) =
    (some e, { s with slots := l1 ++ l2 })
  rw [hfilter]

/-- C3: the scoring function is exactly the claimed four-term weighted sum
`0.3 * exp(-(now - lastAccessedAt) / 3600000) + 0.2 * log(accessCount + 1)
+ 0.3 * (priority / 7) + 0.2 * w(category)` with the claimed category
table (decision 1.0, insight 0.9, pattern 0.8, reference 0.6, task 0.5,
result 0.4, default 0.5), summed and not averaged. -/
theorem C3_score_formula (now : ℤ) (m : Memory) :
    WorkingMemory.calculateValue now m = claimScore now m := by
  have hcw : (categoryWeight m.category : ℝ) = (claimCategoryWeight m.category : ℝ) := rfl
  unfold WorkingMemory.calculateValue claimScore
  rw [hcw]
  norm_num
  ring

/-- C5: `clear` returns the number of live entries and leaves a store of
size 0 whose `list()` is the empty sequence, for every prior content. -/
theorem C5_clear_complete (s : WorkingMemory) :
    s.clear.1 = s.slots.length ∧ s.clear.2.slots.length = 0 ∧ s.clear.2.list = [] :=
  ⟨rfl, rfl, rfl⟩

/-- C10: when `add` is called with the default priority argument
(`priority = 5` in the source), the stored priority of the created entry
is 5. -/
theorem C10_default_priority (s : WorkingMemory) (now : ℤ) (id : String)
    (content : List Char) (category : String) (tags : List String) :
    defaultPriority = 5 ∧
    ((s.add now id content category defaultPriority tags).1).priority = 5 :=
  ⟨rfl, rfl⟩

/-- C7: `add` stores the priority clamped to `[1, 7]` (20 becomes 7, -3
becomes 1, 4 stays 4) and stores the first 200 characters of the content
(an input of length 350 is stored with length exactly 200); no input is
rejected. -/
theorem C7_input_normalization (s : WorkingMemory) (now : ℤ) (id : String)
    (content : List Char) (category : String) (priority : ℤ) (tags : List String) :
    (1 ≤ ((s.add now id content category priority tags).1).priority ∧
      ((s.add now id content category priority tags).1).priority ≤ 7) ∧
    ((s.add now id content category priority tags).1).content = content.take 200 ∧
    ((s.add now id content category priority tags).1).content.length ≤ 200 ∧
    ((s.add now id content category 20 tags).1).priority = 7 ∧
    ((s.add now id content category (-3) tags).1).priority = 1 ∧
    ((s.add now id content category 4 tags).1).priority = 4 ∧
    ((s.add now id (List.replicate 350 'a') category priority tags).1).content.length = 200 := by
  refine ⟨⟨?_, ?_⟩, rfl, ?_, rfl, rfl, rfl, ?_⟩
  · exact le_min (le_max_right priority 1) (by norm_num)
  · exact min_le_right _ 7
  · show (content.take 200).length ≤ 200
    rw [List.length_take]
    omega
  · show ((List.replicate 350 'a').take 200).length = 200
    rw [List.length_take, List.length_replicate]
    omega

/-- C8: for two entries identical except for `lastAccessedAt`, the one with
the older `lastAccessedAt` scores at most the other at any common instant. -/
theorem C8_age_monotonicity (m : Memory) (t1 t2 now : ℤ) (h : t1 ≤ t2) :
    WorkingMemory.calculateValue now { m with lastAccessed := t1 } ≤
      WorkingMemory.calculateValue now { m with lastAccessed := t2 } := by
  unfold WorkingMemory.calculateValue
  simp only
  have hcast : (t1 : ℝ) ≤ (t2 : ℝ) := by exact_mod_cast h
  have key : Real.exp (-((now : ℝ) - (t1 : ℝ)) / (1000 * 60 * 60)) ≤
      Real.exp (-((now : ℝ) - (t2 : ℝ)) / (1000 * 60 * 60)) := by
    apply Real.exp_le_exp.mpr
    apply div_le_div_of_nonneg_right ?_ (by norm_num)
    linarith
  linarith

/-- Witness for C8 at a concrete entry and concrete instants. -/
theorem C8_age_monotonicity_witness :
    WorkingMemory.calculateValue 10 { demoMemory with lastAccessed := 0 } ≤
      WorkingMemory.calculateValue 10 { demoMemory with lastAccessed := 1 } :=
  C8_age_monotonicity demoMemory 0 1 10 (by decide)

/-- C2: on an empty store `evictLowestValue` removes nothing and returns an
absent result; on a non-empty store with distinct live ids it scores every
live entry at the given instant and removes and returns the entry with the
minimum score, choosing the earliest-inserted one on ties (every entry
before the evicted one scores strictly higher); the operation is a pure
function of the store and the instant, hence deterministic on reruns. -/
theorem C2_evict_min_tiebreak (s : WorkingMemory) (now : ℤ) :
    (s.slots = [] → s.evictLowestValue now = (none, s)) ∧
    (s.slots ≠ [] → idsNodup s →
      ∃ l1 e l2, s.slots = l1 ++ e :: l2 ∧
        s.evictLowestValue now = (some e, { s with slots := l1 ++ l2 }) ∧
        (∀ m ∈ s.slots, WorkingMemory.calculateValue now e ≤ WorkingMemory.calculateValue now m) ∧
        (∀ m ∈ l1, WorkingMemory.calculateValue now e < WorkingMemory.calculateValue now m)) := by
  constructor
  · intro h
    unfold WorkingMemory.evictLowestValue
    rw [h]
    rfl
  · intro hne hnd
    exact evictLowestValue_spec s now hne hnd

/-- Witness for C2: the empty store at capacity 7, and a concrete one-slot
store. -/
theorem C2_evict_min_tiebreak_witness :
    (WorkingMemory.init 7).evictLowestValue 0 = (none, WorkingMemory.init 7) ∧
    (∃ l1 e l2, demoStore.slots = l1 ++ e :: l2 ∧
      demoStore.evictLowestValue 0 = (some e, { demoStore with slots := l1 ++ l2 }) ∧
      (∀ m ∈ demoStore.slots,
        WorkingMemory.calculateValue 0 e ≤ WorkingMemory.calculateValue 0 m) ∧
      (∀ m ∈ l1, WorkingMemory.calculateValue 0 e < WorkingMemory.calculateValue 0 m)) :=
  ⟨(C2_evict_min_tiebreak (WorkingMemory.init 7) 0).1 rfl,
   (C2_evict_min_tiebreak demoStore 0).2 (by decide) (by unfold idsNodup; decide)⟩

/-- `find?` over `l1 ++ m :: l2` returns `m` when nothing in `l1` matches
and `m` does. -/
theorem find?_first_match (p : Memory → Bool) (l1 : List Memory) (m : Memory)
    (l2 : List Memory) (h1 : ∀ x ∈ l1, p x = false) (hm : p m = true) :
    List.find? p (l1 ++ m :: l2) = some m := by
  induction l1 with
  | nil => exact List.find?_cons_of_pos l2 hm
  | cons a t ih =>
    have ha := h1 a (List.mem_cons_self a t)
    rw [List.cons_append, List.find?_cons_of_neg _ (by simp [ha])]
    exact ih (fun x hx => h1 x (List.mem_cons_of_mem a hx))

/-- `accessSlots` touches exactly the first matching entry. -/
theorem accessSlots_append (now : ℤ) (memoryId : String) (l1 : List Memory) (m : Memory)
    (l2 : List Memory) (h1 : ∀ x ∈ l1, x.id ≠ memoryId) (hm : m.id = memoryId) :
    accessSlots now memoryId (l1 ++ m :: l2) = l1 ++ touch now m :: l2 := by
  induction l1 with
  | nil => simp [accessSlots, hm]
  | cons a t ih =>
    have ha : ¬(a.id = memoryId) := h1 a (List.mem_cons_self a t)
    rw [List.cons_append, accessSlots, if_neg ha,
      ih (fun x hx => h1 x (List.mem_cons_of_mem a hx)), List.cons_append]

/-- C4: `access` on an id with no live match changes nothing and returns an
absent result; `access` on a live id (first match at `m`) sets that entry's
`lastAccessedAt` to the call time, increments its `accessCount` by exactly
one, leaves every other entry unchanged, and returns the updated entry. -/
theorem C4_access_accounting (s : WorkingMemory) (now : ℤ) (memoryId : String) :
    ((∀ m ∈ s.slots, m.id ≠ memoryId) → s.access now memoryId = (none, s)) ∧
    (∀ l1 m l2, s.slots = l1 ++ m :: l2 → m.id = memoryId →
      (∀ x ∈ l1, x.id ≠ memoryId) →
      s.access now memoryId =
        (some (touch now m), { s with slots := l1 ++ touch now m :: l2 })) := by
  constructor
  · intro h
    unfold WorkingMemory.access
    have hfind : s.slots.find? (fun m => m.id = memoryId) = none := by
      rw [List.find?_eq_none]
      intro x hx
      simpa using h x hx
    rw [hfind]
  · intro l1 m l2 hdec hm h1
    unfold WorkingMemory.access
    have hfind : s.slots.find? (fun x => x.id = memoryId) = some m := by
      rw [hdec]
      apply find?_first_match
      · intro x hx
        simpa using h1 x hx
      · simpa using hm
    rw [hfind]
    show (some (touch now m), { s with slots := accessSlots now memoryId s.slots }) =
      (some (touch now m), { s with slots := l1 ++ touch now m :: l2 })
    rw [hdec, accessSlots_append now memoryId l1 m l2 h1 hm]

/-- Witness for C4: an unknown id and the live id of the demo store. -/
theorem C4_access_accounting_witness :
    demoStore.access 5 "nope" = (none, demoStore) ∧
    demoStore.access 5 "wm_demo" =
      (some (touch 5 demoMemory), { demoStore with slots := [touch 5 demoMemory] }) :=
  ⟨(C4_access_accounting demoStore 5 "nope").1 (by decide),
   (C4_access_accounting demoStore 5 "wm_demo").2 [] demoMemory [] rfl rfl (by simp)⟩

/-- `accessSlots` never changes the sequence of live ids. -/
theorem accessSlots_map_id (now : ℤ) (memoryId : String) (l : List Memory) :
    (accessSlots now memoryId l).map Memory.id = l.map Memory.id := by
  induction l with
  | nil => rfl
  | cons a t ih =>
    by_cases h : a.id = memoryId
    · simp [accessSlots, h, touch]
    · simp only [accessSlots, if_neg h, List.map_cons, ih]

/-- `access` never changes the sequence of live ids nor the capacity. -/
theorem access_preserves_ids (s : WorkingMemory) (now : ℤ) (memoryId : String) :
    ((s.access now memoryId).2).slots.map Memory.id = s.slots.map Memory.id ∧
    ((s.access now memoryId).2).maxSlots = s.maxSlots := by
  unfold WorkingMemory.access
  cases hfind : s.slots.find? (fun m => m.id = memoryId) with
  | none => exact ⟨rfl, rfl⟩
  | some m => exact ⟨accessSlots_map_id now memoryId s.slots, rfl⟩

/-- The slots after `evictLowestValue` are a sublist of the slots before,
and the capacity is unchanged. -/
theorem evict_slots_sublist (s : WorkingMemory) (now : ℤ) :
    List.Sublist ((s.evictLowestValue now).2).slots s.slots ∧
    ((s.evictLowestValue now).2).maxSlots = s.maxSlots := by
  unfold WorkingMemory.evictLowestValue
  cases argminSnd (s.slots.map (fun m => (m, WorkingMemory.calculateValue now m))) with
  | none => exact ⟨List.Sublist.refl _, rfl⟩
  | some p =>
    obtain ⟨e, v⟩ := p
    exact ⟨List.filter_sublist _, rfl⟩

/-- Every operation preserves distinctness of live ids, given that an
insert carries a fresh id. -/
theorem step_nodup (s : WorkingMemory) (op : Op) (hnd : idsNodup s)
    (hfresh : freshOp s op = true) : idsNodup (step s op) := by
  cases op with
  | add now id content category priority tags =>
    have hid : id ∉ s.slots.map Memory.id := by
      simpa [freshOp] using hfresh
    have hs1 : idsNodup (if s.maxSlots ≤ s.slots.length then (s.evictLowestValue now).2 else s) ∧
        id ∉ (if s.maxSlots ≤ s.slots.length then
          (s.evictLowestValue now).2 else s).slots.map Memory.id := by
      split
      · obtain ⟨hsub, _⟩ := evict_slots_sublist s now
        exact ⟨List.Nodup.sublist (hsub.map Memory.id) hnd,
          fun hmem => hid ((hsub.map Memory.id).subset hmem)⟩
      · exact ⟨hnd, hid⟩
    obtain ⟨hnd1, hid1⟩ := hs1
    show (((if s.maxSlots ≤ s.slots.length then (s.evictLowestValue now).2 else s).slots ++
      [mkMemory now id content category priority tags]).map Memory.id).Nodup
    rw [List.map_append, List.nodup_append]
    refine ⟨hnd1, by simp, ?_⟩
    intro a ha hb
    have hab : a = id := by simpa [mkMemory] using hb
    rw [hab] at ha
    exact hid1 ha
  | access now memoryId =>
    show (((s.access now memoryId).2).slots.map Memory.id).Nodup
    rw [(access_preserves_ids s now memoryId).1]
    exact hnd
  | evict now =>
    exact List.Nodup.sublist (((evict_slots_sublist s now).1).map Memory.id) hnd
  | clear => exact List.nodup_nil

/-- Every operation preserves the capacity field. -/
theorem step_maxSlots (s : WorkingMemory) (op : Op) :
    (step s op).maxSlots = s.maxSlots := by
  cases op with
  | add now id content category priority tags =>
    show ((s.add now id content category priority tags).2).maxSlots = s.maxSlots
    unfold WorkingMemory.add
    show (if s.maxSlots ≤ s.slots.length then (s.evictLowestValue now).2 else s).maxSlots =
      s.maxSlots
    split
    · exact (evict_slots_sublist s now).2
    · rfl
  | access now memoryId => exact (access_preserves_ids s now memoryId).2
  | evict now => exact (evict_slots_sublist s now).2
  | clear => rfl

/-- `add` at or above capacity on a store with distinct ids and capacity at
least 1 evicts exactly one entry and appends one: the size is unchanged. -/
theorem add_length_at_capacity (s : WorkingMemory) (now : ℤ) (id : String)
    (content : List Char) (category : String) (priority : ℤ) (tags : List String)
    (hnd : idsNodup s) (hcap : s.maxSlots ≤ s.slots.length) (hC : 1 ≤ s.maxSlots) :
    ((s.add now id content category priority tags).2).slots.length = s.slots.length := by
  have hne : s.slots ≠ [] := by
    intro h
    rw [h] at hcap
    simp only [List.length_nil, Nat.le_zero] at hcap
    omega
  obtain ⟨l1, e, l2, hdec, heq, _, _⟩ := evictLowestValue_spec s now hne hnd
  show ((if s.maxSlots ≤ s.slots.length then (s.evictLowestValue now).2 else s).slots ++
    [mkMemory now id content category priority tags]).length = s.slots.length
  rw [if_pos hcap, heq]
  show ((l1 ++ l2) ++ [mkMemory now id content category priority tags]).length =
    s.slots.length
  rw [hdec]
  simp only [List.length_append, List.length_cons, List.length_nil]
  omega

/-- Every operation keeps the size within a positive capacity. -/
theorem step_length (s : WorkingMemory) (op : Op) (hnd : idsNodup s)
    (hC : 1 ≤ s.maxSlots) (hlen : s.slots.length ≤ s.maxSlots) :
    (step s op).slots.length ≤ s.maxSlots := by
  cases op with
  | add now id content category priority tags =>
    by_cases hcap : s.maxSlots ≤ s.slots.length
    · show ((s.add now id content category priority tags).2).slots.length ≤ s.maxSlots
      rw [add_length_at_capacity s now id content category priority tags hnd hcap hC]
      exact hlen
    · show ((if s.maxSlots ≤ s.slots.length then (s.evictLowestValue now).2 else s).slots ++
        [mkMemory now id content category priority tags]).length ≤ s.maxSlots
      rw [if_neg hcap]
      simp only [List.length_append, List.length_cons, List.length_nil]
      omega
  | access now memoryId =>
    have h := congrArg List.length (access_preserves_ids s now memoryId).1
    simp only [List.length_map] at h
    show ((s.access now memoryId).2).slots.length ≤ s.maxSlots
    omega
  | evict now =>
    have h := ((evict_slots_sublist s now).1).length_le
    show ((s.evictLowestValue now).2).slots.length ≤ s.maxSlots
    omega
  | clear =>
    show ([] : List Memory).length ≤ s.maxSlots
    simp only [List.length_nil]
    omega

/-- Running a fresh-id trace preserves distinct live ids. -/
theorem run_nodup (ops : List Op) : ∀ s : WorkingMemory, idsNodup s →
    freshRun s ops = true → idsNodup (run s ops) := by
  induction ops with
  | nil =>
    intro s hnd _
    exact hnd
  | cons op ops ih =>
    intro s hnd hfresh
    unfold freshRun at hfresh
    rw [Bool.and_eq_true] at hfresh
    obtain ⟨h1, h2⟩ := hfresh
    exact ih (step s op) (step_nodup s op hnd h1) h2

/-- Running any trace never changes the capacity field. -/
theorem run_maxSlots (ops : List Op) : ∀ s : WorkingMemory,
    (run s ops).maxSlots = s.maxSlots := by
  induction ops with
  | nil => intro s; rfl
  | cons op ops ih =>
    intro s
    rw [show run s (op :: ops) = run (step s op) ops from rfl, ih (step s op),
      step_maxSlots s op]

/-- Running a fresh-id trace keeps the size within a positive capacity. -/
theorem run_length (ops : List Op) : ∀ s : WorkingMemory, idsNodup s →
    1 ≤ s.maxSlots → s.slots.length ≤ s.maxSlots → freshRun s ops = true →
    (run s ops).slots.length ≤ s.maxSlots := by
  induction ops with
  | nil =>
    intro s _ _ hlen _
    exact hlen
  | cons op ops ih =>
    intro s hnd hC hlen hfresh
    unfold freshRun at hfresh
    rw [Bool.and_eq_true] at hfresh
    obtain ⟨h1, h2⟩ := hfresh
    have hmax := step_maxSlots s op
    have := ih (step s op) (step_nodup s op hnd h1) (by omega)
      (by rw [hmax]; exact step_length s op hnd hC hlen) h2
    rw [hmax] at this
    exact this

/-- C1: from an empty store of capacity `C ≥ 1`, after every sequence of
insert operations with fresh ids the number of live entries is at most `C`;
moreover, whenever the store is at size at least its capacity, an insert
evicts exactly one entry before appending the new one, leaving the size
unchanged. -/
theorem C1_capacity_invariant (C : ℕ) (hC : 1 ≤ C) (ops : List Op)
    (_hadds : ∀ op ∈ ops, isAddOp op = true)
    (hfresh : freshRun (WorkingMemory.init C) ops = true) :
    (run (WorkingMemory.init C) ops).slots.length ≤ C ∧
    (∀ (s : WorkingMemory) (now : ℤ) (id : String) (content : List Char)
        (category : String) (priority : ℤ) (tags : List String),
      idsNodup s → s.maxSlots = C → C ≤ s.slots.length →
      ((s.add now id content category priority tags).2).slots.length = s.slots.length) := by
  constructor
  · exact run_length ops (WorkingMemory.init C)
      (by simp [idsNodup, WorkingMemory.init]) hC (by simp [WorkingMemory.init]) hfresh
  · intro s now id content category priority tags hnd hmax hcap
    exact add_length_at_capacity s now id content category priority tags hnd
      (by omega) (by omega)

/-- Witness for C1: a capacity-1 store receiving two inserts (the second
one triggers an eviction). -/
theorem C1_capacity_invariant_witness :
    (run (WorkingMemory.init 1) demoOps).slots.length ≤ 1 :=
  (C1_capacity_invariant 1 (by decide) demoOps (by decide) (by rfl)).1

/-- C6: starting from an empty store, after every sequence of operations
whose inserts carry fresh ids, all live ids are pairwise distinct. -/
theorem C6_id_uniqueness (C : ℕ) (ops : List Op)
    (hfresh : freshRun (WorkingMemory.init C) ops = true) :
    idsNodup (run (WorkingMemory.init C) ops) :=
  run_nodup ops (WorkingMemory.init C) (by simp [idsNodup, WorkingMemory.init]) hfresh

/-- Witness for C6 on the concrete two-insert trace. -/
theorem C6_id_uniqueness_witness : idsNodup (run (WorkingMemory.init 1) demoOps) :=
  C6_id_uniqueness 1 demoOps (by rfl)

/-- At instant 0, entry B (result, priority 1) scores strictly below entry
A (decision, priority 7). -/
theorem value_memB_lt_memA :
    WorkingMemory.calculateValue 0 memB < WorkingMemory.calculateValue 0 memA := by
  have hA : categoryWeight "decision" = 1.0 := rfl
  have hB : categoryWeight "result" = 0.4 := rfl
  unfold WorkingMemory.calculateValue memA memB mkMemory
  dsimp only
  rw [hA, hB]
  norm_num [Real.exp_zero, Real.log_one, min_def, max_def]

/-- Evicting from the store holding A then B removes B. -/
theorem scenario_evict :
    WorkingMemory.evictLowestValue ⟨2, [memA, memB]⟩ 0 = (some memB, ⟨2, [memA]⟩) := by
  have hlt := value_memB_lt_memA
  have hargmin : argminSnd [(memA, WorkingMemory.calculateValue 0 memA),
      (memB, WorkingMemory.calculateValue 0 memB)] =
      some (memB, WorkingMemory.calculateValue 0 memB) := by
    simp only [argminSnd]
    rw [if_neg (not_le.mpr hlt)]
  unfold WorkingMemory.evictLowestValue
  dsimp only [List.map_cons, List.map_nil]
  rw [hargmin]
  rfl

/-- C9: in a store of capacity 2, inserting A (decision, priority 7), then
B (result, priority 1), then C (task, priority 5), with no accesses in
between, evicts B at the third insert, leaving exactly A and C, size 2. -/
theorem C9_concrete_eviction :
    ((run (WorkingMemory.init 2) [opA, opB]).evictLowestValue 0).1 = some memB ∧
    scenarioStore.slots.map Memory.id = ["wm_A", "wm_C"] ∧
    scenarioStore.slots.length = 2 := by
  have hAB : run (WorkingMemory.init 2) [opA, opB] = ⟨2, [memA, memB]⟩ := rfl
  have hstep : scenarioStore =
      { (WorkingMemory.evictLowestValue ⟨2, [memA, memB]⟩ 0).2 with
        slots := (WorkingMemory.evictLowestValue ⟨2, [memA, memB]⟩ 0).2.slots ++ [memC] } :=
    rfl
  refine ⟨?_, ?_, ?_⟩
  · rw [hAB, scenario_evict]
  · rw [hstep, scenario_evict]
    rfl
  · rw [hstep, scenario_evict]
    rfl

end ElvisWM
